import Mathlib

/-!
# Verification of the microps core (device/protocol plane and IPv4 path)

Shallow embedding of the network-stack core: the protocol dispatcher
(`net.c`), the IRQ registry (`platform/linux/intr.c`) and the IPv4 layer
(`ip.c`).  Machine integers are modelled as `Nat` with explicit bounds or
`% 2^w` at the points where the C code truncates; fallible C functions
return `Option` (`none` = the C call never returns, for the loops that can
diverge, or the failure case, as noted at each definition); heap pointers
are modelled as numeric addresses handed out by a bump allocator whose
addresses start at `2^32`, far above every 16-bit protocol type, mirroring
that `memory_alloc` never returns a pointer numerically equal to a small
integer.
-/

/-! ## Internet checksum

Modelled from the spec: `cksum16` lives in `util.c`, which is not among the
source files; the spec pins it as the 16-bit one's-complement sum
("16-bit header checksum (one's-complement sum) equals zero", "compute the
header checksum with the sum field zeroed").  `fold16` performs one
end-around-carry fold; two folds reduce any sum of at most `65535` words
below `2^16`. -/

def fold16 (s : Nat) : Nat := s % 65536 + s / 65536

/-- One's-complement sum of a list of 16-bit words, folded into 16 bits. -/
def onesSum (ws : List Nat) : Nat := fold16 (fold16 ws.sum)

/-- Checksum `cksum16` over a word list: complement of the folded one's-complement
sum (the value the C code stores in, and checks against, `hdr->sum`). -/
def cksum16 (ws : List Nat) : Nat := 65535 - onesSum ws

/-- Big-endian 16-bit words from a byte list (odd trailing byte padded with
zero on the right, as the checksum routine reads a final half word). -/
def bytesToWords : List Nat → List Nat
  | [] => []
  | [b] => [b * 256]
  | b1 :: b2 :: rest => (b1 * 256 + b2) :: bytesToWords rest

/-! ## Protocol dispatcher (`net.c`)

The protocol list is threaded through the heap exactly as the C source
builds it: `net_protocol_register` links the fresh node's `next` field to
the node itself (`proto->next = proto;` in the source) and its duplicate
scan compares the 16-bit `type` against the `next` pointer
(`if (type == proto->next)`), both kept faithfully.  Address `0` is the
null pointer. -/

structure QEntry where
  dev : Nat
  len : Nat
  data : List Nat
deriving DecidableEq, Repr

structure ProtoNode where
  next : Nat
  type : Nat
  queue : List QEntry
  handlerId : Nat
deriving DecidableEq, Repr

abbrev Heap := List (Nat × ProtoNode)

def hfind : Heap → Nat → Option ProtoNode
  | [], _ => none
  | (a, n) :: rest, x => if a = x then some n else hfind rest x

def hset : Heap → Nat → ProtoNode → Heap
  | [], _, _ => []
  | (a, n) :: rest, x, m => if a = x then (a, m) :: rest else (a, n) :: hset rest x m

structure NetState where
  heap : Heap
  protocols : Nat
  nextAddr : Nat
deriving DecidableEq, Repr

/-- The state before any registration: empty heap, null protocol list.
`memory_alloc` addresses are modelled from `2^32` up. -/
def emptyNet : NetState := ⟨[], 0, 4294967296⟩

/-- The duplicate scan of `net_protocol_register`, source-faithful: it
compares the candidate `type` with each node's `next` POINTER (the source
reads `if (type == proto->next)`), modelling the implementation-defined
pointer/integer comparison as numeric equality of the address.  `fuel`
bounds the traversal; `none` means the walk did not reach null within
`fuel` steps (the C loop never returns). -/
def findDupLoop (heap : Heap) : Nat → Nat → Nat → Option Bool
  | 0, _, _ => none
  | fuel + 1, p, ty =>
    if p = 0 then some false
    else
      match hfind heap p with
      | none => none
      | some node =>
        if ty = node.next then some true else findDupLoop heap fuel node.next ty

/-- Model of `net_protocol_register`, source-faithful: on a clean scan it allocates a
node whose `next` points to the node itself (`proto->next = proto;`) and
makes it the list head.  Result `some (0, st)` = returned 0, `some (-1, st)`
= returned -1, `none` = the scan never terminated.  (`memory_alloc` is
modelled as succeeding; its failure path returns -1 without touching the
list and decides none of the claims.) -/
def net_protocol_register (fuel : Nat) (st : NetState) (ty hid : Nat) :
    Option (Int × NetState) :=
  match findDupLoop st.heap fuel st.protocols ty with
  | none => none
  | some true => some (-1, st)
  | some false =>
    let a := st.nextAddr
    some (0, ⟨(a, ⟨a, ty, [], hid⟩) :: st.heap, a, a + 1⟩)

/-- The state holding exactly one registered protocol node, as the (sole
reachable) successful registration leaves it: a one-node cycle. -/
def singleProto (ty hid : Nat) (q : List QEntry) : NetState :=
  ⟨[(4294967296, ⟨4294967296, ty, q, hid⟩)], 4294967296, 4294967297⟩

/-- The lookup loop of `net_input_handler` (`proto->type == type`), with
fuel; `some none` = reached null without a match, `some (some (a, node))` =
found the entry at address `a`, `none` = the walk never reached null. -/
def findProtoLoop (heap : Heap) : Nat → Nat → Nat → Option (Option (Nat × ProtoNode))
  | 0, _, _ => none
  | fuel + 1, p, ty =>
    if p = 0 then some none
    else
      match hfind heap p with
      | none => none
      | some node =>
        if node.type = ty then some (some (p, node))
        else findProtoLoop heap fuel node.next ty

/-- Model of `net_input_handler`.  `allocOk` models the `memory_alloc` outcome and
`pushOk` the `queue_push` outcome (the queue primitive is in `util.c`,
outside the sources; the spec pins it as a FIFO, so a push appends at the
tail).  The result carries (return value, state, softirq raised?); `none` =
the protocol scan never returned. -/
def net_input_handler (fuel : Nat) (st : NetState) (ty dev len : Nat)
    (data : List Nat) (allocOk pushOk : Bool) : Option (Int × NetState × Bool) :=
  match findProtoLoop st.heap fuel st.protocols ty with
  | none => none
  | some none => some (0, st, false)
  | some (some (a, node)) =>
    if allocOk = false then some (-1, st, false)
    else
      let entry : QEntry := ⟨dev, len, data.take len⟩
      if pushOk = false then some (-1, st, false)
      else some (0, ⟨hset st.heap a { node with queue := node.queue ++ [entry] },
                     st.protocols, st.nextAddr⟩, true)

/-- The drain loop of `net_softirq_handler`: at each protocol node it pops
the queue to empty, invoking the node's handler per entry (recorded in the
returned trace in invocation order), then follows `next`.  `fuel` bounds
the number of protocol nodes visited; the second component is `none` when
the walk did not reach null (the C loop never returns), with the trace of
handler invocations made up to that point. -/
def softirqLoop (fuel : Nat) (heap : Heap) (p : Nat) (acc : List (Nat × QEntry)) :
    List (Nat × QEntry) × Option Heap :=
  match fuel with
  | 0 => (acc, none)
  | fuel + 1 =>
    if p = 0 then (acc, some heap)
    else
      match hfind heap p with
      | none => (acc, none)
      | some node =>
        softirqLoop fuel (hset heap p { node with queue := [] }) node.next
          (acc ++ node.queue.map (fun e => (node.handlerId, e)))

/-- Model of `net_softirq_handler`: trace of handler invocations, and the final state
(`none` when the walk over the protocol list never terminates). -/
def net_softirq_handler (fuel : Nat) (st : NetState) :
    List (Nat × QEntry) × Option NetState :=
  match softirqLoop fuel st.heap st.protocols [] with
  | (tr, none) => (tr, none)
  | (tr, some h) => (tr, some ⟨h, st.protocols, st.nextAddr⟩)

/-- A sequence of `net_input_handler` calls for type `ty`, each required to
return 0 (a successful enqueue); payloads are (device, length, bytes). -/
def runInputs (ty : Nat) (st : NetState) : List (Nat × Nat × List Nat) → Option NetState
  | [] => some st
  | (dev, len, bytes) :: rest =>
    match net_input_handler 1 st ty dev len bytes true true with
    | some (0, st', _) => runInputs ty st' rest
    | _ => none

/-- The queue entries a payload list becomes (`memcpy` of `len` bytes). -/
def entriesOf (payloads : List (Nat × Nat × List Nat)) : List QEntry :=
  payloads.map (fun p => ⟨p.1, p.2.1, p.2.2.take p.2.1⟩)

/-! ## IRQ registry (`platform/linux/intr.c`) -/

/-- Modelled from the spec: `INTR_IRQ_SHARED` is defined in `platform.h`,
which is not among the source files; the spec describes the field as
"flags (SHARED bit)", a single flag bit, value `0x0001`. -/
def INTR_IRQ_SHARED : Nat := 1

structure IrqEntry where
  irq : Nat
  flags : Nat
  handlerId : Nat
  devId : Nat
deriving DecidableEq, Repr

/-- The conflict test of `intr_request_irq`, source-faithful:
`entry->flags ^ INTR_IRQ_SHARED || flags ^ INTR_IRQ_SHARED` — an XOR
against the whole flags word, not a bit test. -/
def irqConflict (e : IrqEntry) (irq flags : Nat) : Bool :=
  e.irq == irq && (e.flags ^^^ INTR_IRQ_SHARED != 0 || flags ^^^ INTR_IRQ_SHARED != 0)

/-- Model of `intr_request_irq`: scans the IRQ list for a conflicting entry, then
prepends the new entry (`entry->next = irqs; irqs = entry;`).  `none` =
returned -1.  (`memory_alloc` is modelled as succeeding — its failure is a
second -1 path — and the `sigaddset` wait-set update carries no state the
claims touch.) -/
def intr_request_irq (irqs : List IrqEntry) (irq flags handlerId devId : Nat) :
    Option (List IrqEntry) :=
  if irqs.any (fun e => irqConflict e irq flags) then none
  else some (⟨irq, flags, handlerId, devId⟩ :: irqs)

/-! ## IPv4 layer (`ip.c`)

Addresses (`ip_addr_t`, network byte order in C memory) are modelled as the
big-endian `Nat` value of their four bytes, so two C addresses compare
equal exactly when the model values do. -/

def isSpaceChar (c : Char) : Bool :=
  c.toNat = 32 || c.toNat = 9 || c.toNat = 10 || c.toNat = 11 ||
  c.toNat = 12 || c.toNat = 13

def isDigitChar (c : Char) : Bool := 48 ≤ c.toNat && c.toNat ≤ 57

/-- Value and length of the leading decimal-digit run. -/
def digitRun : List Char → Nat → Nat → Nat × Nat
  | [], v, k => (v, k)
  | c :: rest, v, k =>
    if isDigitChar c then digitRun rest (v * 10 + (c.toNat - 48)) (k + 1)
    else (v, k)

/-- Modelled from ISO C `strtol` with base 10 (libc, outside the
repository): skip whitespace, accept one optional sign, consume the digit
run; with no digits the conversion fails and the end pointer stays at the
start.  Returns (value, characters consumed); `consumed = 0` encodes
`ep == sp`.  Overflow clamping to `LONG_MAX` is omitted — it cannot change
any comparison against the 0..255 bounds the caller applies. -/
def strtol10 (cs : List Char) : Int × Nat :=
  let body := cs.dropWhile isSpaceChar
  let wsk := cs.length - body.length
  match body with
  | [] => (0, 0)
  | c :: rest =>
    if c.toNat = 45 then
      let (v, k) := digitRun rest 0 0
      if k = 0 then (0, 0) else (-(Int.ofNat v), wsk + 1 + k)
    else if c.toNat = 43 then
      let (v, k) := digitRun rest 0 0
      if k = 0 then (0, 0) else (Int.ofNat v, wsk + 1 + k)
    else
      let (v, k) := digitRun body 0 0
      if k = 0 then (0, 0) else (Int.ofNat v, wsk + k)

/-- The four-field loop of `ip_addr_pton`; `n` is the number of fields still
to parse (the source's `idx` is `4 - n`), `acc` accumulates the bytes
big-endian.  Faithful to the source checks: value in 0..255, `ep != sp`,
terminator `'\0'` after the fourth field and `'.'` after the others. -/
def ptonGo : Nat → List Char → Nat → Option Nat
  | 0, _, _ => none
  | n + 1, cs, acc =>
    let (v, k) := strtol10 cs
    if v < 0 ∨ 255 < v then none
    else if k = 0 then none
    else
      let ep := cs.drop k
      if n = 0 then
        if ep.isEmpty then some (acc * 256 + v.toNat) else none
      else
        match ep with
        | '.' :: rest => ptonGo n rest (acc * 256 + v.toNat)
        | _ => none

/-- Model of `ip_addr_pton`: dotted-quad text to the 32-bit address value. -/
def ip_addr_pton (s : String) : Option Nat := ptonGo 4 s.toList 0

/-- Splits a character list at every `'.'` (empty groups kept). -/
def splitDots : List Char → List (List Char)
  | [] => [[]]
  | c :: rest =>
    if c = '.' then [] :: splitDots rest
    else
      match splitDots rest with
      | [] => [[c]]
      | g :: gs => (c :: g) :: gs

/-- Rejoins what `splitDots` produced. -/
def joinDots : List (List Char) → List Char
  | [] => []
  | [p] => p
  | p :: ps => p ++ '.' :: joinDots ps

def octetVal (ds : List Char) : Nat := ds.foldl (fun a c => a * 10 + (c.toNat - 48)) 0

/-- A plain decimal octet field: nonempty, digits only, value at most 255. -/
def isOctetStr (ds : List Char) : Bool :=
  !ds.isEmpty && ds.all isDigitChar && octetVal ds ≤ 255

/-- A dotted-quad string of four octets: exactly four plain decimal fields
separated by dots — the shape the spec's `addr_pton` sentence describes. -/
def isDottedQuad (s : String) : Bool :=
  let parts := splitDots s.toList
  parts.length = 4 && parts.all isOctetStr

structure IpIface where
  unicast : Nat
  netmask : Nat
  broadcast : Nat
deriving DecidableEq, Repr

/-- Model of `ip_iface_alloc`: parse both strings, derive the directed broadcast
`(unicast & netmask) | ~netmask` (32-bit complement).  `none` = returned
NULL. -/
def ip_iface_alloc (unicast netmask : String) : Option IpIface :=
  match ip_addr_pton unicast with
  | none => none
  | some u =>
    match ip_addr_pton netmask with
    | none => none
    | some m => some ⟨u, m, (u &&& m) ||| (4294967295 ^^^ m)⟩

/-- The invariant `broadcast == (unicast & netmask) | ~netmask`, the spec's interface
invariant. -/
def broadcastOk (i : IpIface) : Prop :=
  i.broadcast = (i.unicast &&& i.netmask) ||| (4294967295 ^^^ i.netmask)

/-- Model of `ip_iface_register` as it affects the global interface list: the
interface is prepended only when `net_device_add_iface` succeeded
(`attachOk`); on failure the list is untouched and -1 returned. -/
def ip_iface_register (ifaces : List IpIface) (attachOk : Bool) (i : IpIface) :
    List IpIface :=
  if attachOk then i :: ifaces else ifaces

structure Device where
  up : Bool
  mtu : Nat
  needArp : Bool
  transmitOk : Bool
deriving DecidableEq, Repr

/-- Model of `ip_iface_select`: first interface whose unicast equals `addr` (the
global list is modelled with each interface's device alongside). -/
def ip_iface_select (ifaces : List (IpIface × Device)) (addr : Nat) :
    Option (IpIface × Device) :=
  ifaces.find? (fun p => p.1.unicast == addr)

/-- The struct `ip_hdr` (fields as values; 16-bit fields are stored already
truncated where the source truncates). -/
structure IpHdr where
  vhl : Nat
  tos : Nat
  total : Nat
  id : Nat
  offset : Nat
  ttl : Nat
  protocol : Nat
  sum : Nat
  src : Nat
  dst : Nat
deriving DecidableEq, Repr

/-- The ten 16-bit words of the 20-byte header, as the checksum walks it. -/
def hdrWords (h : IpHdr) : List Nat :=
  [h.vhl * 256 + h.tos, h.total, h.id, h.offset, h.ttl * 256 + h.protocol,
   h.sum, h.src / 65536, h.src % 65536, h.dst / 65536, h.dst % 65536]

/-- The header `ip_output_core` formats before computing the checksum:
`vhl = (4 << 4) | (20 >> 2) = 0x45`, `tos = 0`, `total = hlen + len` as a
16-bit store, `ttl = 0xff`, `sum = 0`. -/
def coreHdrZero (protocol len src dst id offset : Nat) : IpHdr :=
  ⟨69, 0, (20 + len) % 65536, id, offset, 255, protocol, 0, src, dst⟩

/-- The header as emitted: the zero-sum header with
`sum = cksum16(hdr, hlen, 0)` filled in. -/
def emittedHdr (protocol len src dst id offset : Nat) : IpHdr :=
  let h0 := coreHdrZero protocol len src dst id offset
  { h0 with sum := cksum16 (hdrWords h0) }

/-- Model of `net_device_output` for a frame of `len` bytes: gates on UP and on
`len ≤ mtu`, then invokes the backend transmit.  Result (return value,
transmit invoked?). -/
def net_device_output (dev : Device) (len : Nat) : Int × Bool :=
  if dev.up = false then (-1, false)
  else if dev.mtu < len then (-1, false)
  else if dev.transmitOk then (0, true) else (-1, true)

/-- Model of `ip_output_device`: under NEED_ARP only broadcast destinations pass
(hardware broadcast address); otherwise a zeroed hardware address is used.
Result (return value, transmit invoked?). -/
def ip_output_device (ifc : IpIface) (dev : Device) (len dst : Nat) : Int × Bool :=
  if dev.needArp then
    if dst = ifc.broadcast ∨ dst = 4294967295 then net_device_output dev len
    else (-1, false)
  else net_device_output dev len

/-- Model of `ip_output_core`: formats the header (checksum over the zeroed-sum
header), appends the payload and hands `total` bytes to
`ip_output_device`.  Result (header, return value, transmit invoked?). -/
def ip_output_core (ifc : IpIface) (dev : Device) (protocol len src dst id offset : Nat) :
    IpHdr × Int × Bool :=
  let hdr := emittedHdr protocol len src dst id offset
  let r := ip_output_device ifc dev hdr.total dst
  (hdr, r.1, r.2)

/-- Model of `ip_output`: fail on `src == ANY`; select the interface by unicast, fail
if none; the source's third check (`iface->unicast != src && src !=
IP_ADDR_BROADCAST`) is kept although selection already guarantees it; gate
on `mtu < IP_HDR_SIZE_MIN + len`; then emit via `ip_output_core` with
source address `iface->unicast` and offset 0.  Result (return value,
transmit invoked?, emitted header or none). -/
def ip_output (ifaces : List (IpIface × Device)) (protocol len src dst id : Nat) :
    Int × Bool × Option IpHdr :=
  if src = 0 then (-1, false, none)
  else
    match ip_iface_select ifaces src with
    | none => (-1, false, none)
    | some (ifc, dev) =>
      if ifc.unicast ≠ src ∧ src ≠ 4294967295 then (-1, false, none)
      else if dev.mtu < 20 + len then (-1, false, none)
      else
        let (hdr, r, tc) := ip_output_core ifc dev protocol len ifc.unicast dst id 0
        (if r = -1 then -1 else Int.ofNat len, tc, some hdr)

/-- What `ip_input` does with a datagram: the drop reason, or acceptance. -/
inductive IpInputRes where
  | tooShort | badVersion | shortIhl | shortTotal | badCksum | fragment
  | noIface | notMine | accept
deriving DecidableEq, Repr

/-- Big-endian 16-bit field at byte offset `i`. -/
def word16 (data : List Nat) (i : Nat) : Nat :=
  data.getD i 0 * 256 + data.getD (i + 1) 0

/-- The destination address, bytes 16..19 big-endian. -/
def dstOf (data : List Nat) : Nat :=
  data.getD 16 0 * 16777216 + data.getD 17 0 * 65536 +
  data.getD 18 0 * 256 + data.getD 19 0

/-- Model of `ip_input` with the receiving device's IP interface
(`net_device_get_iface(dev, NET_IFace_FAMILY_IP)` result) alongside:
validation order and every check as in the source. -/
def ip_input (data : List Nat) (ifc : Option IpIface) : IpInputRes :=
  let len := data.length
  if len < 20 then .tooShort
  else
    let vhl := data.getD 0 0
    if vhl / 16 ≠ 4 then .badVersion
    else
      let hlen := vhl % 16 * 4
      if len < hlen then .shortIhl
      else
        let total := word16 data 2
        if len < total then .shortTotal
        else if cksum16 (bytesToWords (data.take hlen)) ≠ 0 then .badCksum
        else
          let offset := word16 data 6
          if offset &&& 8192 ≠ 0 ∨ offset &&& 8191 ≠ 0 then .fragment
          else
            match ifc with
            | none => .noIface
            | some i =>
              if dstOf data ≠ i.unicast ∧ dstOf data ≠ i.broadcast ∧
                  dstOf data ≠ 4294967295 then .notMine
              else .accept

/-! ## Checksum arithmetic -/

theorem fold16_mod (s : Nat) : fold16 s % 65535 = s % 65535 := by
  unfold fold16; omega

theorem fold2_mod (s : Nat) : fold16 (fold16 s) % 65535 = s % 65535 := by
  rw [fold16_mod, fold16_mod]

theorem fold2_le (s : Nat) (h : s ≤ 4294901760) : fold16 (fold16 s) ≤ 65535 := by
  unfold fold16; omega

theorem fold2_pos (s : Nat) (h : 0 < s) : 0 < fold16 (fold16 s) := by
  unfold fold16; omega

theorem cksum_zero_fill (S0 : Nat) (hpos : 0 < S0) (hle : S0 ≤ 589815) :
    fold16 (fold16 (S0 + (65535 - fold16 (fold16 S0)))) = 65535 := by
  have h1 := fold2_mod S0
  have h2 := fold2_le S0 (by omega)
  have h3 := fold2_mod (S0 + (65535 - fold16 (fold16 S0)))
  have h4 := fold2_le (S0 + (65535 - fold16 (fold16 S0))) (by omega)
  have h5 := fold2_pos (S0 + (65535 - fold16 (fold16 S0))) (by omega)
  omega

theorem cksum16_fill (pre post : List Nat)
    (hpos : 0 < pre.sum + post.sum) (hle : pre.sum + post.sum ≤ 589815) :
    cksum16 (pre ++ cksum16 (pre ++ 0 :: post) :: post) = 0 := by
  have key := cksum_zero_fill (pre.sum + post.sum) hpos hle
  simp only [cksum16, onesSum, List.sum_append, List.sum_cons]
  have harg : pre.sum + (65535 - fold16 (fold16 (pre.sum + (0 + post.sum))) + post.sum)
      = pre.sum + post.sum
        + (65535 - fold16 (fold16 (pre.sum + post.sum))) := by
    have : pre.sum + (0 + post.sum) = pre.sum + post.sum := by omega
    rw [this]
    omega
  rw [harg, key]

theorem emitted_cksum (protocol len src dst id offset : Nat)
    (hp : protocol ≤ 255) (hl : 20 + len ≤ 65535) (hs : src < 4294967296)
    (hd : dst < 4294967296) (hi : id ≤ 65535) (ho : offset ≤ 65535) :
    cksum16 (hdrWords (emittedHdr protocol len src dst id offset)) = 0 := by
  have hmod : (20 + len) % 65536 = 20 + len := Nat.mod_eq_of_lt (by omega)
  have hsd : src / 65536 ≤ 65535 := by omega
  have hdd : dst / 65536 ≤ 65535 := by omega
  have h := cksum16_fill
    [69 * 256 + 0, (20 + len) % 65536, id, offset, 255 * 256 + protocol]
    [src / 65536, src % 65536, dst / 65536, dst % 65536]
    (by simp only [List.sum_cons, List.sum_nil]; omega) (by simp only [List.sum_cons, List.sum_nil]; omega)
  have e : hdrWords (emittedHdr protocol len src dst id offset)
      = [69 * 256 + 0, (20 + len) % 65536, id, offset, 255 * 256 + protocol]
        ++ cksum16 ([69 * 256 + 0, (20 + len) % 65536, id, offset, 255 * 256 + protocol]
            ++ 0 :: [src / 65536, src % 65536, dst / 65536, dst % 65536])
          :: [src / 65536, src % 65536, dst / 65536, dst % 65536] := rfl
  rw [e]
  exact h

/-! ## Dispatcher list traversals on the one-node cycle -/

theorem findDupLoop_single (fuel : Nat) :
    ∀ ty2 ty hid q, ty2 ≠ 4294967296 →
      findDupLoop [(4294967296, ⟨4294967296, ty, q, hid⟩)] fuel 4294967296 ty2
        = none := by
  induction fuel with
  | zero => intro ty2 ty hid q _; rfl
  | succ n ih =>
    intro ty2 ty hid q hne
    have step : findDupLoop [(4294967296, ⟨4294967296, ty, q, hid⟩)] (n + 1) 4294967296 ty2
        = if ty2 = 4294967296 then some true
          else findDupLoop [(4294967296, ⟨4294967296, ty, q, hid⟩)] n 4294967296 ty2 := rfl
    rw [step, if_neg hne]
    exact ih ty2 ty hid q hne

theorem findProtoLoop_single_none (fuel : Nat) :
    ∀ ty2 ty hid q, ty2 ≠ ty →
      findProtoLoop [(4294967296, ⟨4294967296, ty, q, hid⟩)] fuel 4294967296 ty2
        = none := by
  induction fuel with
  | zero => intro ty2 ty hid q _; rfl
  | succ n ih =>
    intro ty2 ty hid q hne
    have step : findProtoLoop [(4294967296, ⟨4294967296, ty, q, hid⟩)] (n + 1) 4294967296 ty2
        = if ty = ty2 then some (some (4294967296, ⟨4294967296, ty, q, hid⟩))
          else findProtoLoop [(4294967296, ⟨4294967296, ty, q, hid⟩)] n 4294967296 ty2 := rfl
    rw [step, if_neg (fun h => hne h.symm)]
    exact ih ty2 ty hid q hne

theorem findProtoLoop_single_found (fuel ty hid : Nat) (q : List QEntry) :
    findProtoLoop [(4294967296, ⟨4294967296, ty, q, hid⟩)] (fuel + 1) 4294967296 ty
      = some (some (4294967296, ⟨4294967296, ty, q, hid⟩)) := by
  have step : findProtoLoop [(4294967296, ⟨4294967296, ty, q, hid⟩)] (fuel + 1) 4294967296 ty
      = if ty = ty then some (some (4294967296, ⟨4294967296, ty, q, hid⟩))
        else findProtoLoop [(4294967296, ⟨4294967296, ty, q, hid⟩)] fuel 4294967296 ty := rfl
  rw [step, if_pos rfl]

theorem softirqLoop_single_stuck (fuel : Nat) :
    ∀ ty hid q acc,
      (softirqLoop fuel [(4294967296, ⟨4294967296, ty, q, hid⟩)] 4294967296 acc).2
        = none := by
  induction fuel with
  | zero => intro ty hid q acc; rfl
  | succ n ih =>
    intro ty hid q acc
    have step : softirqLoop (n + 1) [(4294967296, ⟨4294967296, ty, q, hid⟩)] 4294967296 acc
        = softirqLoop n [(4294967296, ⟨4294967296, ty, [], hid⟩)] 4294967296
            (acc ++ q.map (fun e => (hid, e))) := rfl
    rw [step]
    exact ih ty hid [] _

theorem softirqLoop_single_empty_trace (fuel : Nat) :
    ∀ ty hid acc,
      (softirqLoop fuel [(4294967296, ⟨4294967296, ty, [], hid⟩)] 4294967296 acc).1
        = acc := by
  induction fuel with
  | zero => intro ty hid acc; rfl
  | succ n ih =>
    intro ty hid acc
    have step : softirqLoop (n + 1) [(4294967296, ⟨4294967296, ty, [], hid⟩)] 4294967296 acc
        = softirqLoop n [(4294967296, ⟨4294967296, ty, [], hid⟩)] 4294967296
            (acc ++ List.map (fun e => (hid, e)) []) := rfl
    rw [step]
    have : acc ++ List.map (fun e => (hid, e)) [] = acc := by simp
    rw [this]
    exact ih ty hid acc

theorem softirqLoop_single_trace (fuel : Nat) (hf : 1 ≤ fuel) (ty hid : Nat)
    (q : List QEntry) (acc : List (Nat × QEntry)) :
    (softirqLoop fuel [(4294967296, ⟨4294967296, ty, q, hid⟩)] 4294967296 acc).1
      = acc ++ q.map (fun e => (hid, e)) := by
  obtain ⟨n, rfl⟩ : ∃ n, fuel = n + 1 := ⟨fuel - 1, by omega⟩
  have step : softirqLoop (n + 1) [(4294967296, ⟨4294967296, ty, q, hid⟩)] 4294967296 acc
      = softirqLoop n [(4294967296, ⟨4294967296, ty, [], hid⟩)] 4294967296
          (acc ++ q.map (fun e => (hid, e))) := rfl
  rw [step]
  exact softirqLoop_single_empty_trace n ty hid _

theorem register_on_empty (fuel ty hid : Nat) (h : 1 ≤ fuel) :
    net_protocol_register fuel emptyNet ty hid = some (0, singleProto ty hid []) := by
  obtain ⟨n, rfl⟩ : ∃ n, fuel = n + 1 := ⟨fuel - 1, by omega⟩
  rfl

theorem net_input_handler_found (fuel : Nat) (st : NetState) (ty dev len a : Nat)
    (node : ProtoNode) (data : List Nat)
    (h : findProtoLoop st.heap fuel st.protocols ty = some (some (a, node))) :
    net_input_handler fuel st ty dev len data true true
      = some (0, ⟨hset st.heap a
            { node with queue := node.queue ++ [⟨dev, len, data.take len⟩] },
          st.protocols, st.nextAddr⟩, true) := by
  unfold net_input_handler
  rw [h]
  rfl

theorem input_handler_single_step (ty hid dev len : Nat) (q : List QEntry)
    (bytes : List Nat) :
    net_input_handler 1 (singleProto ty hid q) ty dev len bytes true true
      = some (0, singleProto ty hid (q ++ [⟨dev, len, bytes.take len⟩]), true) :=
  (net_input_handler_found 1 (singleProto ty hid q) ty dev len 4294967296
      ⟨4294967296, ty, q, hid⟩ bytes (findProtoLoop_single_found 0 ty hid q)).trans rfl

theorem register_none_of_findDup_none (fuel : Nat) (st : NetState) (ty hid : Nat)
    (h : findDupLoop st.heap fuel st.protocols ty = none) :
    net_protocol_register fuel st ty hid = none := by
  unfold net_protocol_register
  rw [h]

theorem input_none_of_findProto_none (fuel : Nat) (st : NetState) (ty dev len : Nat)
    (data : List Nat) (aOk pOk : Bool)
    (h : findProtoLoop st.heap fuel st.protocols ty = none) :
    net_input_handler fuel st ty dev len data aOk pOk = none := by
  unfold net_input_handler
  rw [h]

theorem input_on_empty (fuel ty dev len : Nat) (data : List Nat) (aOk pOk : Bool) :
    net_input_handler (fuel + 1) emptyNet ty dev len data aOk pOk
      = some (0, emptyNet, false) := rfl

theorem softirq_none_of_loop_none (fuel : Nat) (st : NetState)
    (h : (softirqLoop fuel st.heap st.protocols []).2 = none) :
    (net_softirq_handler fuel st).2 = none := by
  unfold net_softirq_handler
  cases hp : softirqLoop fuel st.heap st.protocols [] with
  | mk tr o =>
    rw [hp] at h
    cases o with
    | none => rfl
    | some hh => exact absurd h (by simp)

theorem softirq_trace_eq (fuel : Nat) (st : NetState) :
    (net_softirq_handler fuel st).1 = (softirqLoop fuel st.heap st.protocols []).1 := by
  unfold net_softirq_handler
  cases hp : softirqLoop fuel st.heap st.protocols [] with
  | mk tr o => cases o <;> rfl

theorem runInputs_single (pls : List (Nat × Nat × List Nat)) :
    ∀ ty hid q, runInputs ty (singleProto ty hid q) pls
      = some (singleProto ty hid (q ++ entriesOf pls)) := by
  induction pls with
  | nil =>
    intro ty hid q
    show some (singleProto ty hid q) = some (singleProto ty hid (q ++ []))
    rw [List.append_nil]
  | cons p rest ih =>
    intro ty hid q
    obtain ⟨dev, len, bytes⟩ := p
    rw [runInputs, input_handler_single_step]
    show runInputs ty (singleProto ty hid (q ++ [⟨dev, len, bytes.take len⟩])) rest
      = some (singleProto ty hid (q ++ entriesOf ((dev, len, bytes) :: rest)))
    rw [ih]
    have : (q ++ [(⟨dev, len, bytes.take len⟩ : QEntry)]) ++ entriesOf rest
        = q ++ entriesOf ((dev, len, bytes) :: rest) := by
      rw [List.append_assoc]
      rfl
    rw [this]

/-- C1: a second registration for an already-registered 16-bit type never
returns (the duplicate scan compares the type against the `next` pointer and
the one-node cycle never reaches null), so the call neither fails nor
rejects the duplicate as the spec requires. -/
theorem net_protocol_register_duplicate_diverges (ty hid hid2 fuel fuel2 : Nat)
    (hty : ty < 65536) (hf : 1 ≤ fuel) :
    net_protocol_register fuel emptyNet ty hid = some (0, singleProto ty hid []) ∧
    net_protocol_register fuel2 (singleProto ty hid []) ty hid2 = none :=
  ⟨register_on_empty fuel ty hid hf,
   register_none_of_findDup_none fuel2 _ ty hid2
     (findDupLoop_single fuel2 ty ty hid [] (by omega))⟩

theorem net_protocol_register_duplicate_diverges_w :
    net_protocol_register 1 emptyNet 2048 7 = some (0, singleProto 2048 7 []) ∧
    net_protocol_register 5 (singleProto 2048 7 []) 2048 8 = none :=
  net_protocol_register_duplicate_diverges 2048 7 8 1 5 (by decide) (by decide)

/-- C2: with one protocol registered (the only reachable nonempty registry,
a one-node cycle), `net_softirq_handler` never terminates, whatever the
queue holds — against the spec's walk-and-drain contract. -/
theorem net_softirq_handler_diverges (ty hid fuel0 fuel : Nat) (q : List QEntry)
    (hf : 1 ≤ fuel0) :
    net_protocol_register fuel0 emptyNet ty hid = some (0, singleProto ty hid []) ∧
    (net_softirq_handler fuel (singleProto ty hid q)).2 = none :=
  ⟨register_on_empty fuel0 ty hid hf,
   softirq_none_of_loop_none fuel _ (softirqLoop_single_stuck fuel ty hid q [])⟩

theorem net_softirq_handler_diverges_w :
    net_protocol_register 1 emptyNet 2048 7 = some (0, singleProto 2048 7 []) ∧
    (net_softirq_handler 9 (singleProto 2048 7 [⟨1, 2, [65, 66]⟩])).2 = none :=
  net_softirq_handler_diverges 2048 7 1 9 [⟨1, 2, [65, 66]⟩] (by decide)

/-- C3: for the registered protocol, a sequence of successful
`net_input_handler` calls enqueues one byte-for-byte copy per payload with
its device and length, in call order, and the softirq drain's handler
invocations replay exactly that sequence in that order. -/
theorem protocol_fifo_delivery (ty hid : Nat) (payloads : List (Nat × Nat × List Nat))
    (fuel : Nat) (hf : 1 ≤ fuel) :
    runInputs ty (singleProto ty hid []) payloads
      = some (singleProto ty hid (entriesOf payloads)) ∧
    (net_softirq_handler fuel (singleProto ty hid (entriesOf payloads))).1
      = (entriesOf payloads).map (fun e => (hid, e)) := by
  constructor
  · have h := runInputs_single payloads ty hid []
    simpa using h
  · rw [softirq_trace_eq]
    have h := softirqLoop_single_trace fuel hf ty hid (entriesOf payloads) []
    simpa using h

theorem protocol_fifo_delivery_w :
    runInputs 2048 (singleProto 2048 7 []) [(1, 2, [65, 66]), (3, 1, [67])]
      = some (singleProto 2048 7 (entriesOf [(1, 2, [65, 66]), (3, 1, [67])])) ∧
    (net_softirq_handler 2
        (singleProto 2048 7 (entriesOf [(1, 2, [65, 66]), (3, 1, [67])]))).1
      = (entriesOf [(1, 2, [65, 66]), (3, 1, [67])]).map (fun e => (7, e)) :=
  protocol_fifo_delivery 2048 7 [(1, 2, [65, 66]), (3, 1, [67])] 2 (by decide)

/-- C10: with an empty registry an unmatched type does return 0 touching
nothing; but with the one registered protocol present, a call for any other
type never returns at all (the cycle never reaches the `return 0`
fall-through), so unsupported frames are not reported as success. -/
theorem net_input_handler_unregistered (fuel fuel2 ty ty1 hid dev len : Nat)
    (q : List QEntry) (data : List Nat) (aOk pOk : Bool) (hne : ty ≠ ty1) :
    net_input_handler (fuel + 1) emptyNet ty dev len data aOk pOk
      = some (0, emptyNet, false) ∧
    net_input_handler fuel2 (singleProto ty1 hid q) ty dev len data aOk pOk = none :=
  ⟨input_on_empty fuel ty dev len data aOk pOk,
   input_none_of_findProto_none fuel2 _ ty dev len data aOk pOk
     (findProtoLoop_single_none fuel2 ty ty1 hid q hne)⟩

theorem net_input_handler_unregistered_w :
    net_input_handler 1 emptyNet 34525 1 2 [65, 66] true true
      = some (0, emptyNet, false) ∧
    net_input_handler 6 (singleProto 2048 7 []) 34525 1 2 [65, 66] true true = none :=
  net_input_handler_unregistered 0 6 34525 2048 7 1 2 [] [65, 66] true true (by decide)

/-- C4: once the length, version, IHL, total, checksum and fragment checks
pass and the device has an IP interface, the datagram is accepted exactly
when its destination is the interface unicast, the interface directed
broadcast, or 255.255.255.255; any other destination is dropped. -/
theorem ip_input_dst_filter (data : List Nat) (i : IpIface)
    (h1 : ¬ data.length < 20)
    (h2 : data.getD 0 0 / 16 = 4)
    (h3 : ¬ data.length < data.getD 0 0 % 16 * 4)
    (h4 : ¬ data.length < word16 data 2)
    (h5 : cksum16 (bytesToWords (data.take (data.getD 0 0 % 16 * 4))) = 0)
    (h6 : word16 data 6 &&& 8192 = 0)
    (h7 : word16 data 6 &&& 8191 = 0) :
    ip_input data (some i) = .accept ↔
      dstOf data = i.unicast ∨ dstOf data = i.broadcast ∨
      dstOf data = 4294967295 := by
  unfold ip_input
  rw [if_neg h1, if_neg (fun hc => hc h2), if_neg h3, if_neg h4,
    if_neg (fun hc => hc h5),
    if_neg (fun hor : _ ∨ _ => hor.elim (fun hc => hc h6) (fun hc => hc h7))]
  show (if dstOf data ≠ i.unicast ∧ dstOf data ≠ i.broadcast ∧ dstOf data ≠ 4294967295
      then IpInputRes.notMine else IpInputRes.accept) = IpInputRes.accept ↔ _
  split_ifs with hA
  · constructor
    · intro habs; exact absurd habs (by simp)
    · intro h; rcases hA with ⟨a, b, c⟩
      rcases h with h | h | h <;> contradiction
  · constructor
    · intro _
      by_contra hno
      push_neg at hno
      exact hA ⟨hno.1, hno.2.1, hno.2.2⟩
    · intro _; rfl

theorem ip_input_dst_filter_w :
    ip_input [69, 0, 0, 20, 0, 0, 0, 0, 64, 1, 101, 234, 10, 0, 0, 1, 10, 0, 0, 255]
      (some ⟨167772162, 4294967040, 167772415⟩) = .accept :=
  (ip_input_dst_filter
    [69, 0, 0, 20, 0, 0, 0, 0, 64, 1, 101, 234, 10, 0, 0, 1, 10, 0, 0, 255]
    ⟨167772162, 4294967040, 167772415⟩ (by decide) (by decide) (by decide) (by decide)
    (by decide) (by decide) (by decide)).mpr (by decide)

theorem iface_select_unicast (ifaces : List (IpIface × Device)) (addr : Nat)
    (p : IpIface × Device) (h : ip_iface_select ifaces addr = some p) :
    p.1.unicast = addr := by
  have hp := List.find?_some h
  simpa using hp

theorem ip_output_some_select (ifaces : List (IpIface × Device))
    (protocol len src dst id : Nat) (ifc : IpIface) (dev : Device)
    (hsrc : ¬ src = 0) (hsel : ip_iface_select ifaces src = some (ifc, dev))
    (huni : ifc.unicast = src) :
    ip_output ifaces protocol len src dst id
      = if dev.mtu < 20 + len then (-1, false, none)
        else
          (if (ip_output_core ifc dev protocol len ifc.unicast dst id 0).2.1 = -1
              then -1 else Int.ofNat len,
            (ip_output_core ifc dev protocol len ifc.unicast dst id 0).2.2,
            some (ip_output_core ifc dev protocol len ifc.unicast dst id 0).1) := by
  unfold ip_output
  rw [if_neg hsrc, hsel]
  show (if ifc.unicast ≠ src ∧ src ≠ 4294967295 then ((-1 : Int), false, (none : Option IpHdr))
    else if dev.mtu < 20 + len then (-1, false, none)
    else
      match ip_output_core ifc dev protocol len ifc.unicast dst id 0 with
      | (hdr, r, tc) => (if r = -1 then -1 else Int.ofNat len, tc, some hdr)) = _
  rw [if_neg (fun hc : ifc.unicast ≠ src ∧ src ≠ 4294967295 => hc.1 huni)]

/-- C5: `ip_output` returns -1 exactly when the source is 0.0.0.0, no
interface has that unicast, the device MTU is below header+len, or the
downstream `ip_output_device` call fails; in the first three cases the
device transmit hook is never invoked. -/
theorem ip_output_failure_iff (ifaces : List (IpIface × Device))
    (protocol len src dst id : Nat) :
    ((ip_output ifaces protocol len src dst id).1 = -1 ↔
      src = 0 ∨ ip_iface_select ifaces src = none ∨
      ∃ p, ip_iface_select ifaces src = some p ∧
        (p.2.mtu < 20 + len ∨
         (ip_output_device p.1 p.2 ((20 + len) % 65536) dst).1 = -1)) ∧
    ((src = 0 ∨ ip_iface_select ifaces src = none ∨
      ∃ p, ip_iface_select ifaces src = some p ∧ p.2.mtu < 20 + len) →
      (ip_output ifaces protocol len src dst id).2.1 = false) := by
  by_cases hsrc : src = 0
  · constructor
    · simp [ip_output, hsrc]
    · intro _; simp [ip_output, hsrc]
  · cases hsel : ip_iface_select ifaces src with
    | none =>
      constructor
      · simp [ip_output, hsrc, hsel]
      · intro _; simp [ip_output, hsrc, hsel]
    | some p =>
      obtain ⟨ifc, dev⟩ := p
      have huni : ifc.unicast = src := iface_select_unicast ifaces src (ifc, dev) hsel
      rw [ip_output_some_select ifaces protocol len src dst id ifc dev hsrc hsel huni]
      by_cases hmtu : dev.mtu < 20 + len
      · rw [if_pos hmtu]
        constructor
        · constructor
          · intro _; exact Or.inr (Or.inr ⟨(ifc, dev), rfl, Or.inl hmtu⟩)

          · intro _; rfl
        · intro _; rfl
      · rw [if_neg hmtu]
        constructor
        · by_cases hdev :
            (ip_output_core ifc dev protocol len ifc.unicast dst id 0).2.1 = -1
          · rw [if_pos hdev]
            constructor
            · intro _; exact Or.inr (Or.inr ⟨(ifc, dev), rfl, Or.inr hdev⟩)
            · intro _; rfl
          · rw [if_neg hdev]
            constructor
            · intro habs; exact Int.noConfusion habs
            · intro hR
              exfalso
              rcases hR with h0 | hnone | ⟨p, hp, hcase⟩
              · exact hsrc h0
              · exact Option.noConfusion hnone
              · injection hp with hp'
                subst hp'
                rcases hcase with hm | hd
                · exact hmtu hm
                · exact hdev hd
        · intro hR
          exfalso
          rcases hR with h0 | hnone | ⟨p, hp, hm⟩
          · exact hsrc h0
          · exact Option.noConfusion hnone
          · injection hp with hp'
            subst hp'
            exact hmtu hm

/-- C6: every datagram ip_output emits carries version 4, IHL 5, TOS 0,
total = header+len, offset 0, TTL 255, and the one's-complement sum over
the 20-byte header including the stored checksum verifies to zero. -/
theorem ip_output_header_fields (ifaces : List (IpIface × Device))
    (protocol len src dst id : Nat) (ifc : IpIface) (dev : Device)
    (hsel : ip_iface_select ifaces src = some (ifc, dev))
    (hsrc : ¬ src = 0)
    (hmtu : ¬ dev.mtu < 20 + len)
    (hmtub : dev.mtu ≤ 65535)
    (hsrcb : ifc.unicast < 4294967296)
    (hdstb : dst < 4294967296)
    (hprot : protocol ≤ 255)
    (hid : id ≤ 65535) :
    (ip_output ifaces protocol len src dst id).2.2
        = some (emittedHdr protocol len ifc.unicast dst id 0) ∧
    (emittedHdr protocol len ifc.unicast dst id 0).vhl / 16 = 4 ∧
    (emittedHdr protocol len ifc.unicast dst id 0).vhl % 16 = 5 ∧
    (emittedHdr protocol len ifc.unicast dst id 0).tos = 0 ∧
    (emittedHdr protocol len ifc.unicast dst id 0).total = 20 + len ∧
    (emittedHdr protocol len ifc.unicast dst id 0).offset = 0 ∧
    (emittedHdr protocol len ifc.unicast dst id 0).ttl = 255 ∧
    cksum16 (hdrWords (emittedHdr protocol len ifc.unicast dst id 0)) = 0 := by
  have huni := iface_select_unicast ifaces src (ifc, dev) hsel
  have htot : (20 + len) % 65536 = 20 + len := Nat.mod_eq_of_lt (by omega)
  refine ⟨?_, by show (69 : Nat) / 16 = 4; rfl, by show (69 : Nat) % 16 = 5; rfl,
    by rfl, ?_, by rfl, by rfl, ?_⟩
  · rw [ip_output_some_select ifaces protocol len src dst id ifc dev hsrc hsel huni,
      if_neg hmtu]
    rfl
  · show (20 + len) % 65536 = 20 + len
    exact htot
  · exact emitted_cksum protocol len ifc.unicast dst id 0 hprot (by omega) hsrcb
      hdstb hid (by omega)

theorem ip_output_header_fields_w :
    (ip_output [(⟨167772162, 4294967040, 167772415⟩, ⟨true, 1500, false, true⟩)]
        1 8 167772162 167772161 128).2.2
      = some (emittedHdr 1 8 167772162 167772161 128 0) ∧
    (emittedHdr 1 8 167772162 167772161 128 0).vhl / 16 = 4 ∧
    (emittedHdr 1 8 167772162 167772161 128 0).vhl % 16 = 5 ∧
    (emittedHdr 1 8 167772162 167772161 128 0).tos = 0 ∧
    (emittedHdr 1 8 167772162 167772161 128 0).total = 20 + 8 ∧
    (emittedHdr 1 8 167772162 167772161 128 0).offset = 0 ∧
    (emittedHdr 1 8 167772162 167772161 128 0).ttl = 255 ∧
    cksum16 (hdrWords (emittedHdr 1 8 167772162 167772161 128 0)) = 0 :=
  ip_output_header_fields
    [(⟨167772162, 4294967040, 167772415⟩, ⟨true, 1500, false, true⟩)]
    1 8 167772162 167772161 128 ⟨167772162, 4294967040, 167772415⟩
    ⟨true, 1500, false, true⟩ (by decide) (by decide) (by decide) (by decide)
    (by decide) (by decide) (by decide) (by decide)

/-- C7 counterexample: flags `3` carries the SHARED bit, the first
registration for IRQ 36 succeeds, yet the second registration with the same
flags fails — the source compares flags to SHARED with XOR, not a bit
test, so the claim's "both carrying the SHARED flag succeed" is false. -/
theorem intr_request_irq_shared_cex :
    intr_request_irq [] 36 3 7 9 = some [⟨36, 3, 7, 9⟩] ∧
    3 &&& INTR_IRQ_SHARED ≠ 0 ∧
    intr_request_irq [⟨36, 3, 7, 9⟩] 36 3 8 9 = none := by decide

/-- C7 amended: `request_irq` fails exactly when an existing entry has the
same IRQ and the two flag words are not both exactly SHARED (XOR
comparison, not a bit test); two registrations with flags exactly SHARED
succeed, and a duplicate with flags 0 fails. -/
theorem intr_request_irq_amended :
    (∀ irqs irq flags hid devId,
      intr_request_irq irqs irq flags hid devId = none ↔
        ∃ e ∈ irqs, e.irq = irq ∧
          (e.flags ≠ INTR_IRQ_SHARED ∨ flags ≠ INTR_IRQ_SHARED)) ∧
    (∀ irq h1 h2 d1 d2,
      intr_request_irq [⟨irq, INTR_IRQ_SHARED, h1, d1⟩] irq INTR_IRQ_SHARED h2 d2
        = some [⟨irq, INTR_IRQ_SHARED, h2, d2⟩, ⟨irq, INTR_IRQ_SHARED, h1, d1⟩]) ∧
    (∀ irq f0 h1 h2 d1 d2,
      intr_request_irq [⟨irq, f0, h1, d1⟩] irq 0 h2 d2 = none) := by
  refine ⟨?_, ?_, ?_⟩
  · intro irqs irq flags hid devId
    unfold intr_request_irq
    split_ifs with hc
    · simp only [true_iff]
      rw [List.any_eq_true] at hc
      obtain ⟨e, he, hce⟩ := hc
      refine ⟨e, he, ?_⟩
      unfold irqConflict at hce
      simp only [Bool.and_eq_true, Bool.or_eq_true, beq_iff_eq, bne_iff_ne,
        ne_eq] at hce
      refine ⟨hce.1, ?_⟩
      rcases hce.2 with h | h
      · exact Or.inl (fun he2 => h (by rw [he2, Nat.xor_self]))
      · exact Or.inr (fun hf => h (by rw [hf, Nat.xor_self]))
    · simp only [reduceCtorEq, false_iff, not_exists]
      intro e he
      apply hc
      rw [List.any_eq_true]
      refine ⟨e, he.1, ?_⟩
      unfold irqConflict
      simp only [Bool.and_eq_true, Bool.or_eq_true, beq_iff_eq, bne_iff_ne, ne_eq]
      refine ⟨he.2.1, ?_⟩
      rcases he.2.2 with h | h
      · exact Or.inl (fun hx => h (Nat.xor_eq_zero.mp hx))
      · exact Or.inr (fun hx => h (Nat.xor_eq_zero.mp hx))
  · intro irq h1 h2 d1 d2
    unfold intr_request_irq
    rw [if_neg]
    simp [irqConflict]
  · intro irq f0 h1 h2 d1 d2
    unfold intr_request_irq
    rw [if_pos]
    simp [irqConflict, INTR_IRQ_SHARED]

/-- C9: every interface `ip_iface_alloc` produces satisfies
`broadcast = (unicast & netmask) | ~netmask`, and `ip_iface_register`
preserves the invariant for every interface on the global list (no other
core operation writes interface fields). -/
theorem ip_iface_broadcast_invariant :
    (∀ u n i, ip_iface_alloc u n = some i → broadcastOk i) ∧
    (∀ ifaces ok i j, (∀ k ∈ ifaces, broadcastOk k) → broadcastOk i →
      j ∈ ip_iface_register ifaces ok i → broadcastOk j) := by
  constructor
  · intro u n i h
    unfold ip_iface_alloc at h
    cases hu : ip_addr_pton u with
    | none => rw [hu] at h; exact Option.noConfusion h
    | some uv =>
      rw [hu] at h
      cases hn : ip_addr_pton n with
      | none => rw [hn] at h; exact Option.noConfusion h
      | some nv =>
        rw [hn] at h
        injection h with h'
        rw [← h']
        rfl
  · intro ifaces ok i j hall hi hj
    unfold ip_iface_register at hj
    by_cases hok : ok = true
    · rw [if_pos hok] at hj
      rcases List.mem_cons.mp hj with h | h
      · rw [h]; exact hi
      · exact hall j h
    · rw [if_neg hok] at hj
      exact hall j hj

/-! ## `ip_addr_pton` parsing lemmas -/

theorem digit_bounds (c : Char) (h : isDigitChar c = true) :
    48 ≤ c.toNat ∧ c.toNat ≤ 57 := by
  simpa [isDigitChar, Bool.and_eq_true, decide_eq_true_eq] using h

theorem not_space_of_digit (c : Char) (h : isDigitChar c = true) :
    isSpaceChar c = false := by
  have hb := digit_bounds c h
  simp only [isSpaceChar, Bool.or_eq_false_iff, decide_eq_false_iff_not]
  omega

theorem digitRun_append (ds : List Char) : ∀ (rest : List Char) (v k : Nat),
    (∀ c ∈ ds, isDigitChar c = true) →
    (∀ c cs, rest = c :: cs → isDigitChar c = false) →
    digitRun (ds ++ rest) v k
      = (ds.foldl (fun a c => a * 10 + (c.toNat - 48)) v, k + ds.length) := by
  induction ds with
  | nil =>
    intro rest v k _ hrest
    cases rest with
    | nil => simp [digitRun]
    | cons c cs =>
      simp only [List.nil_append, List.foldl_nil, List.length_nil, Nat.add_zero]
      unfold digitRun
      rw [hrest c cs rfl]
      simp
  | cons d ds' ih =>
    intro rest v k hd hrest
    have hdig : isDigitChar d = true := hd d (List.mem_cons_self d ds')
    show digitRun (d :: (ds' ++ rest)) v k = _
    unfold digitRun
    rw [hdig]
    simp only [if_true]
    rw [ih rest (v * 10 + (d.toNat - 48)) (k + 1)
      (fun c hc => hd c (List.mem_cons_of_mem d hc)) hrest]
    simp only [List.foldl_cons, List.length_cons, Prod.mk.injEq]
    exact ⟨trivial, by omega⟩

theorem strtol10_digits (ds rest : List Char) (hne : ds ≠ [])
    (hd : ∀ c ∈ ds, isDigitChar c = true)
    (hrest : ∀ c cs, rest = c :: cs → isDigitChar c = false) :
    strtol10 (ds ++ rest) = (Int.ofNat (octetVal ds), ds.length) := by
  obtain ⟨d, ds', rfl⟩ : ∃ d ds', ds = d :: ds' := by
    cases ds with
    | nil => exact absurd rfl hne
    | cons d ds' => exact ⟨d, ds', rfl⟩
  have hdig : isDigitChar d = true := hd d (List.mem_cons_self d ds')
  have hnsp : isSpaceChar d = false := not_space_of_digit d hdig
  have hbound := digit_bounds d hdig
  have hdrop : (d :: ds' ++ rest).dropWhile isSpaceChar = d :: (ds' ++ rest) := by
    simp [List.dropWhile_cons, hnsp]
  unfold strtol10
  rw [hdrop]
  simp only [List.length_cons, Nat.sub_self]
  rw [if_neg (by omega : ¬ d.toNat = 45), if_neg (by omega : ¬ d.toNat = 43)]
  have hrun := digitRun_append (d :: ds') rest 0 0 hd hrest
  rw [show d :: (ds' ++ rest) = (d :: ds') ++ rest from rfl, hrun]
  rw [if_neg (by simp : ¬ 0 + (d :: ds').length = 0)]
  simp [octetVal]

theorem splitDots_ne_nil (cs : List Char) : splitDots cs ≠ [] := by
  cases cs with
  | nil => simp [splitDots]
  | cons c rest =>
    unfold splitDots
    by_cases hc : c = '.'
    · rw [if_pos hc]; simp
    · rw [if_neg hc]
      cases splitDots rest <;> simp

theorem joinDots_cons_cons (c : Char) (g : List Char) (gs : List (List Char)) :
    joinDots ((c :: g) :: gs) = c :: joinDots (g :: gs) := by
  cases gs <;> rfl

theorem joinDots_splitDots (cs : List Char) : joinDots (splitDots cs) = cs := by
  induction cs with
  | nil => rfl
  | cons c rest ih =>
    unfold splitDots
    by_cases hc : c = '.'
    · rw [if_pos hc]
      subst hc
      cases hsp : splitDots rest with
      | nil => exact absurd hsp (splitDots_ne_nil rest)
      | cons g gs =>
        show [] ++ '.' :: joinDots (g :: gs) = '.' :: rest
        rw [List.nil_append, ← hsp, ih]
    · rw [if_neg hc]
      cases hsp : splitDots rest with
      | nil => exact absurd hsp (splitDots_ne_nil rest)
      | cons g gs =>
        rw [joinDots_cons_cons, ← hsp, ih]

theorem isOctetStr_parts (p : List Char) (hoct : isOctetStr p = true) :
    p ≠ [] ∧ (∀ c ∈ p, isDigitChar c = true) ∧ octetVal p ≤ 255 := by
  simp only [isOctetStr, Bool.and_eq_true, Bool.not_eq_true', List.isEmpty_eq_false,
    List.all_eq_true, decide_eq_true_eq] at hoct
  exact ⟨hoct.1.1, hoct.1.2, hoct.2⟩

theorem ptonGo_quad (parts : List (List Char)) : ∀ (acc : Nat),
    (∀ p ∈ parts, isOctetStr p = true) → parts ≠ [] →
    (ptonGo parts.length (joinDots parts) acc).isSome = true := by
  induction parts with
  | nil => intro acc _ hne; exact absurd rfl hne
  | cons p parts' ih =>
    intro acc hall _
    obtain ⟨hpne, hpd, hpv⟩ :=
      isOctetStr_parts p (hall p (List.mem_cons_self _ _))
    cases parts' with
    | nil =>
      have hs : strtol10 (p ++ []) = (Int.ofNat (octetVal p), p.length) :=
        strtol10_digits p [] hpne hpd (fun c cs h => absurd h (by simp))
      rw [List.append_nil] at hs
      show (ptonGo (0 + 1) p acc).isSome = true
      unfold ptonGo
      simp only [hs, Int.ofNat_eq_natCast]
      rw [if_neg (by omega :
            ¬ ((octetVal p : Int) < 0 ∨ 255 < (octetVal p : Int)))]
      rw [if_neg (fun h0 => hpne (List.length_eq_zero.mp h0))]
      rw [if_pos trivial]
      rw [List.drop_length]
      rfl
    | cons q qs =>
      have hdot : ∀ c cs, '.' :: joinDots (q :: qs) = c :: cs → isDigitChar c = false := by
        intro c cs h
        injection h with h1 _
        rw [← h1]
        decide
      have hs : strtol10 (p ++ '.' :: joinDots (q :: qs))
          = (Int.ofNat (octetVal p), p.length) :=
        strtol10_digits p ('.' :: joinDots (q :: qs)) hpne hpd hdot
      show (ptonGo ((q :: qs).length + 1) (p ++ '.' :: joinDots (q :: qs)) acc).isSome
        = true
      unfold ptonGo
      simp only [hs, Int.ofNat_eq_natCast]
      rw [if_neg (by omega :
            ¬ ((octetVal p : Int) < 0 ∨ 255 < (octetVal p : Int)))]
      rw [if_neg (fun h0 => hpne (List.length_eq_zero.mp h0))]
      rw [if_neg (by simp : ¬ (q :: qs).length = 0)]
      rw [List.drop_left]
      exact ih (acc * 256 + ((octetVal p : Int)).toNat)
        (fun r hr => hall r (List.mem_cons_of_mem p hr)) (by simp)

/-- C8 counterexample: "+1.2.3.4" is not a dotted-quad string of four
digit octets, yet `ip_addr_pton` accepts it (strtol consumes the optional
sign), refuting "succeeds exactly on dotted-quad strings of four octets,
rejecting every input with a non-digit character". -/
theorem ip_addr_pton_claim_cex :
    ¬ (∀ s : String, (ip_addr_pton s).isSome = true ↔ isDottedQuad s = true) := by
  intro hclaim
  have h1 : isDottedQuad "+1.2.3.4" = true := (hclaim "+1.2.3.4").mp (by decide)
  exact absurd h1 (by decide)

/-- C8 amended: `addr_pton` accepts every dotted-quad string of four plain
digit octets and rejects the seven listed strings, but acceptance is
strictly wider than plain digit quads: a field is parsed with `strtol`, so
an optional sign (or field-leading whitespace) is consumed and e.g.
"+1.2.3.4" is accepted. -/
theorem ip_addr_pton_amended :
    (∀ s : String, isDottedQuad s = true → (ip_addr_pton s).isSome = true) ∧
    (ip_addr_pton "" = none ∧ ip_addr_pton "1.2.3" = none ∧
     ip_addr_pton "1.2.3.4.5" = none ∧ ip_addr_pton "1.2.3.256" = none ∧
     ip_addr_pton "1.2.3.-1" = none ∧ ip_addr_pton "1.2.3.a" = none ∧
     ip_addr_pton "1..2.3" = none) ∧
    (isDottedQuad "+1.2.3.4" = false ∧ ip_addr_pton "+1.2.3.4" = some 16909060) := by
  refine ⟨?_, by decide, by decide⟩
  intro s h
  simp only [isDottedQuad, Bool.and_eq_true, decide_eq_true_eq,
    List.all_eq_true] at h
  unfold ip_addr_pton
  rw [show s.toList = joinDots (splitDots s.toList) from (joinDots_splitDots _).symm,
    show (4 : Nat) = (splitDots s.toList).length from h.1.symm]
  exact ptonGo_quad (splitDots s.toList) 0 h.2 (splitDots_ne_nil _)
